import Mathlib

/-!
Verification development for `bin/anthology/people.py`: the `PersonName`
identity value and the `PersonIndex` registry (canonicalization, slug
assignment, paper and co-author bookkeeping).

Strings are modelled by Lean `String`; the two Python string primitives the
source relies on, `str.strip()` and `str.split(" || ")`, are modelled by
executable character-level functions (`pyStrip`, `pySplitSep`) with the same
semantics, because the corresponding library functions do not reduce inside
the kernel.  Python `dict` / `defaultdict` / `Counter` fields are modelled by
association lists in insertion order, with explicit get-or-create helpers
that mirror `defaultdict` auto-vivification exactly.  The external `slugify`
routine is an arbitrary function parameter `sl`, matching its contract
(deterministic string-to-string).
-/

/-- Whitespace stripping on character lists, mirroring Python `str.strip()`:
drop whitespace from both ends. -/
def stripL (l : List Char) : List Char :=
  ((l.dropWhile Char.isWhitespace).reverse.dropWhile Char.isWhitespace).reverse

/-- `pyStrip s` models Python `s.strip()`. -/
def pyStrip (s : String) : String := ⟨stripL s.data⟩

/-- Splitting a character list on the fixed separator `" || "`, mirroring
Python `s.split(" || ")`: leftmost, non-overlapping occurrences; a string
with no occurrence yields a one-element result. -/
def splitSep : List Char → List (List Char)
  | [] => [[]]
  | ' ' :: '|' :: '|' :: ' ' :: rest => [] :: splitSep rest
  | c :: rest =>
    match splitSep rest with
    | [] => [[c]]
    | p :: ps => (c :: p) :: ps

/-- `pySplitSep s` models Python `s.split(" || ")`. -/
def pySplitSep (s : String) : List String := (splitSep s.data).map (fun l => ⟨l⟩)

/-- The identity value of `people.py`: class `PersonName` with attributes
`first`, `last`, `jr`. -/
structure PersonName where
  first : String
  last : String
  jr : String
deriving DecidableEq, Repr

/-- The constructor `PersonName.__init__`: all three parts are stripped. -/
def PersonName.mkP (first last jr : String) : PersonName :=
  ⟨pyStrip first, pyStrip last, pyStrip jr⟩

/-- `PersonName.__repr__`: if `jr` is non-empty (Python truthiness) emit
`first || last || jr`; else if `first` is non-empty emit `first || last`;
else emit `last` alone. -/
def pRepr (n : PersonName) : String :=
  if n.jr ≠ "" then n.first ++ " || " ++ n.last ++ " || " ++ n.jr
  else if n.first ≠ "" then n.first ++ " || " ++ n.last
  else n.last

/-- `PersonName.from_repr`: split on `" || "`; element 0 becomes `first`,
element 1 (when present) becomes `last`, element 2 (when present) becomes
`jr`; missing elements default to the empty string; the result goes through
the stripping constructor. -/
def PersonName.fromRepr (s : String) : PersonName :=
  let parts := pySplitSep s
  PersonName.mkP (parts.getD 0 "") (parts.getD 1 "") (parts.getD 2 "")

/-- First-match association-list lookup with decidable key equality; models
a read of a Python `dict` binding (`d[k]` when present, `k in d` tests). -/
def aget? [DecidableEq α] : List (α × β) → α → Option β
  | [], _ => none
  | (k, v) :: rest, a => if k = a then some v else aget? rest a

/-- Defaulted association-list read: the stored value, or the default used
by a `defaultdict` / `Counter` when the key is absent. -/
def dget [DecidableEq α] (l : List (α × β)) (a : α) (d : β) : β :=
  (aget? l a).getD d

/-- Get-or-create update of an association list: apply `f` to the value
bound to `a` (or to the default `d`, appending a fresh binding at the end),
mirroring mutation of a `defaultdict` entry in insertion order.  With
`f = fun v => v` this is exactly the auto-vivification a `defaultdict`
performs on a plain read of a missing key. -/
def asetd [DecidableEq α] : List (α × β) → α → β → (β → β) → List (α × β)
  | [], a, d, f => [(a, f d)]
  | (k, v) :: rest, a, d, f =>
    if k = a then (k, f v) :: rest else (k, v) :: asetd rest a d f

/-- Set insertion modelling Python `set.add`: no change when present. -/
def insertS [DecidableEq α] (a : α) (l : List α) : List α :=
  if a ∈ l then l else a :: l

/-- Occurrence count of an element in a list (Python loop increments). -/
def countEq [DecidableEq α] (a : α) : List α → Nat
  | [] => 0
  | x :: rest => (if x = a then 1 else 0) + countEq a rest

/-- The decimal digit characters used by Python `str(i)`. -/
def digitChar (d : Nat) : Char := Char.ofNat (48 + d)

/-- Fuel-driven most-significant-first decimal digit expansion. -/
def natStrAux : Nat → Nat → List Char
  | 0, _ => []
  | _ + 1, 0 => []
  | fuel + 1, n + 1 => natStrAux fuel ((n + 1) / 10) ++ [digitChar ((n + 1) % 10)]

/-- `natStr n` models Python `str(n)` for a natural number. -/
def natStr (n : Nat) : String := if n = 0 then "0" else ⟨natStrAux n n⟩

/-- The candidate slug tried at loop iteration `i` of `PersonIndex.register`:
the slugified base itself first, then the base with the decimal suffix `i`. -/
def slugCand (base : String) : Nat → String
  | 0 => base
  | k + 1 => base ++ natStr (k + 1)

/-- The slug-collision loop of `PersonIndex.register`: starting at candidate
index `i`, return the first candidate not in `used`.  The loop of the source
terminates because only finitely many slugs are used; here the recursion
carries fuel, and `slugSearch_fresh` below shows the fuel chosen in
`freshSlug` always suffices. -/
def slugSearch (used : List String) (base : String) : Nat → Nat → String
  | i, 0 => slugCand base i
  | i, fuel + 1 =>
    if slugCand base i ∈ used then slugSearch used base (i + 1) fuel
    else slugCand base i

/-- The site-wide-unique slug generation of `PersonIndex.register`. -/
def freshSlug (used : List String) (base : String) : String :=
  slugSearch used base 0 (used.length + 1)

/-- External paper record, at its interface boundary: an opaque identifier
`full_id` and the accessor `get role` returning the identities listed under
the role. -/
structure Paper where
  full_id : String
  get : String → List PersonName

/-- The state of `PersonIndex`: `names` maps serialized name strings to
`PersonName` values, `variants` maps serialized variant strings to canonical
serialized strings, `allSlugs` is the `_all_slugs` set, `slugs` maps
identities to their slugs, `coauthors` maps identities to per-co-author
counters, `papers` maps identities to per-role paper-id lists.  All
dictionaries are association lists in insertion order. -/
structure PersonIndex where
  names : List (String × PersonName)
  variants : List (String × String)
  allSlugs : List String
  slugs : List (PersonName × String)
  coauthors : List (PersonName × List (PersonName × Nat))
  papers : List (PersonName × List (String × List String))
deriving DecidableEq

/-- `PersonIndex.__init__` with an already-loaded variant table: empty maps
and the used-slug set seeded with the empty string. -/
def initIndex (variants : List (String × String)) : PersonIndex :=
  ⟨[], variants, [""], [], [], []⟩

/-- `PersonIndex.get_canonical_variant`: serialize the name; when that
string is a variant key, parse the stored canonical string, else return the
name unchanged. -/
def getCanonicalVariant (variants : List (String × String)) (name : PersonName) :
    PersonName :=
  match aget? variants (pRepr name) with
  | some c => PersonName.fromRepr c
  | none => name

/-- One iteration of the co-author loop in `PersonIndex.register`:
canonicalize the listed author; when it differs from the registered
identity, increment `coauthors[identity][author]`. -/
def coauthorStep (vt : List (String × String)) (c : PersonName)
    (co : List (PersonName × List (PersonName × Nat))) (author : PersonName) :
    List (PersonName × List (PersonName × Nat)) :=
  let a := getCanonicalVariant vt author
  if a = c then co else asetd co c [] (fun cnt => asetd cnt a 0 (fun k => k + 1))

/-- `PersonIndex.register(name, paper, role)`, parameterized by the external
`slugify` routine `sl`: canonicalize the name; when its serialization is
unknown, record it in `names` and reserve a fresh site-wide-unique slug;
append the paper id under the role; then count canonicalized co-authors
other than the identity itself.  Returns the serialized name and the new
state. -/
def register (sl : String → String) (st : PersonIndex) (name : PersonName)
    (paper : Paper) (role : String) : String × PersonIndex :=
  let c := getCanonicalVariant st.variants name
  let nameRepr := pRepr c
  let st1 :=
    if (aget? st.names nameRepr).isSome then st
    else
      let slug := freshSlug st.allSlugs (sl nameRepr)
      { st with
        names := st.names ++ [(nameRepr, c)]
        allSlugs := insertS slug st.allSlugs
        slugs := st.slugs ++ [(c, slug)] }
  let st2 :=
    { st1 with
      papers :=
        asetd st1.papers c []
          (fun rm => asetd rm role [] (fun l => l ++ [paper.full_id])) }
  let st3 :=
    { st2 with coauthors := (paper.get role).foldl (coauthorStep st.variants c) st2.coauthors }
  (nameRepr, st3)

/-- A finite sequence of `register` calls, in order. -/
def runRegisters (sl : String → String) (st : PersonIndex) :
    List (PersonName × Paper × String) → PersonIndex
  | [] => st
  | (n, p, r) :: rest => runRegisters sl (register sl st n p r).2 rest

/-- `PersonIndex.get_slug`: canonicalize, then a plain (non-defaulted) map
lookup; `none` models the `KeyError` raised on a missing key.  The state is
returned unchanged: the source performs no mutation here. -/
def getSlug (st : PersonIndex) (name : PersonName) : Option String × PersonIndex :=
  (aget? st.slugs (getCanonicalVariant st.variants name), st)

/-- `PersonIndex.get_papers`: canonicalize, then read `papers[name]` (and
`papers[name][role]` when a role is given).  Because `papers` is a nested
`defaultdict`, the read auto-vivifies missing bindings with empty defaults;
the returned state records that effect faithfully. -/
def getPapers (st : PersonIndex) (name : PersonName) (role : Option String) :
    List String × PersonIndex :=
  let c := getCanonicalVariant st.variants name
  match role with
  | none =>
    (((dget st.papers c []).map Prod.snd).flatten,
      { st with papers := asetd st.papers c [] (fun rm => rm) })
  | some r =>
    (dget (dget st.papers c []) r [],
      { st with papers := asetd st.papers c [] (fun rm => asetd rm r [] (fun l => l)) })

/-- `PersonIndex.get_coauthors`: canonicalize, then read the `Counter`
items of `coauthors[name]`; the outer `defaultdict` read auto-vivifies a
missing binding with an empty counter. -/
def getCoauthors (st : PersonIndex) (name : PersonName) :
    List (PersonName × Nat) × PersonIndex :=
  let c := getCanonicalVariant st.variants name
  (dget st.coauthors c [], { st with coauthors := asetd st.coauthors c [] (fun co => co) })

/-- `PersonIndex.get_venues`: accumulate, over the papers of the identity,
the venue counts supplied by the external venue index `vidx`. -/
def getVenues (vidx : String → List String) (st : PersonIndex) (name : PersonName) :
    List (String × Nat) × PersonIndex :=
  let pr := getPapers st name none
  (pr.1.foldl (fun acc pid => (vidx pid).foldl (fun a v => asetd a v 0 (fun k => k + 1)) acc) [],
    pr.2)

/-- `true` when a character list contains two adjacent pipe characters. -/
def hasPP : List Char → Bool
  | [] => false
  | [_] => false
  | a :: b :: rest => (a = '|' && b = '|') || hasPP (b :: rest)

/-- A `PersonName` none of whose parts contains two adjacent pipes; under
this condition the canonical serialization is injective. -/
def NoPPn (n : PersonName) : Prop :=
  hasPP n.first.data = false ∧ hasPP n.last.data = false ∧ hasPP n.jr.data = false

instance (n : PersonName) : Decidable (NoPPn n) :=
  inferInstanceAs (Decidable (hasPP n.first.data = false ∧ hasPP n.last.data = false ∧
    hasPP n.jr.data = false))

/-- Defaulted view of the per-role paper list, missing keys reading as
empty: the observable content of the `papers` store. -/
def papersView (st : PersonIndex) (m : PersonName) (r : String) : List String :=
  dget (dget st.papers m []) r []

/-- Defaulted view of a co-author counter, missing keys reading as zero:
the observable content of the `coauthors` store. -/
def coView (st : PersonIndex) (m a : PersonName) : Nat :=
  dget (dget st.coauthors m []) a 0

/-- Invariant for slug uniqueness: slug values are pairwise distinct, all
recorded in the used-slug set and non-empty, and the empty slug stays
reserved in the used-slug set. -/
def SlugInv (st : PersonIndex) : Prop :=
  (st.slugs.map Prod.snd).Nodup ∧
  (∀ v ∈ st.slugs.map Prod.snd, v ∈ st.allSlugs ∧ v ≠ "") ∧ "" ∈ st.allSlugs

/-- The given identity appears nowhere as a key of the three per-identity
stores of the index. -/
def keysAbsent (st : PersonIndex) (m : PersonName) : Prop :=
  aget? st.papers m = none ∧ aget? st.coauthors m = none ∧ aget? st.slugs m = none

/-- Registration invariant tying `slugs` keys to `names` values: the two
lists grow in lockstep, every `names` binding keys the serialization of its
value, all stored identities are pipe-pair-free, and the serialized keys are
pairwise distinct. -/
def RegInv (st : PersonIndex) : Prop :=
  st.slugs.map Prod.fst = st.names.map Prod.snd ∧
  (∀ kv ∈ st.names, kv.1 = pRepr kv.2 ∧ NoPPn kv.2) ∧
  (st.names.map Prod.fst).Nodup

/-! ### Basic lemmas on the string and association-list helpers -/

theorem strExt {s t : String} (h : s.data = t.data) : s = t := congrArg String.mk h

theorem sepD : (" || " : String).data = [' ', '|', '|', ' '] := rfl

theorem emptyD : ("" : String).data = [] := rfl

theorem pn_ext {m n : PersonName} (h1 : m.first = n.first) (h2 : m.last = n.last)
    (h3 : m.jr = n.jr) : m = n := by
  cases m; cases n; simp_all

theorem aget?_asetd [DecidableEq α] (l : List (α × β)) (a b : α) (d : β) (f : β → β) :
    aget? (asetd l a d f) b = if b = a then some (f (dget l a d)) else aget? l b := by
  induction l with
  | nil =>
    by_cases h : b = a
    · subst h; simp [asetd, aget?, dget]
    · simp [asetd, aget?, dget, h, Ne.symm h]
  | cons kv rest ih =>
    obtain ⟨k, v⟩ := kv
    by_cases hk : k = a
    · subst hk
      by_cases hb : b = k
      · subst hb; simp [asetd, aget?, dget]
      · simp [asetd, aget?, dget, hb, Ne.symm hb]
    · by_cases hb : k = b
      · have hba : ¬ b = a := fun e => hk (hb.trans e)
        simp [asetd, aget?, hk, hb, hba]
      · simp [asetd, aget?, dget, hk, hb, ih]

theorem aget?_eq_none_iff [DecidableEq α] (l : List (α × β)) (a : α) :
    aget? l a = none ↔ a ∉ l.map Prod.fst := by
  induction l with
  | nil => simp [aget?]
  | cons kv rest ih =>
    obtain ⟨k, v⟩ := kv
    by_cases h : k = a
    · subst h; simp [aget?]
    · simp [aget?, h, Ne.symm h, ih]

theorem aget?_isSome_iff [DecidableEq α] (l : List (α × β)) (a : α) :
    (aget? l a).isSome = true ↔ a ∈ l.map Prod.fst := by
  induction l with
  | nil => simp [aget?]
  | cons kv rest ih =>
    obtain ⟨k, v⟩ := kv
    by_cases h : k = a
    · subst h; simp [aget?]
    · simp [aget?, h, Ne.symm h, ih]

theorem aget?_mem [DecidableEq α] {l : List (α × β)} {a : α} {v : β}
    (h : aget? l a = some v) : (a, v) ∈ l := by
  induction l with
  | nil => simp [aget?] at h
  | cons kv rest ih =>
    obtain ⟨k, w⟩ := kv
    by_cases hk : k = a
    · subst hk
      simp [aget?] at h
      simp [h]
    · simp [aget?, hk] at h
      exact List.mem_cons_of_mem _ (ih h)

theorem aget?_append_of_none [DecidableEq α] {l : List (α × β)} (l' : List (α × β)) {a : α}
    (h : aget? l a = none) : aget? (l ++ l') a = aget? l' a := by
  induction l with
  | nil => simp
  | cons kv rest ih =>
    obtain ⟨k, v⟩ := kv
    by_cases hk : k = a
    · simp [aget?, hk] at h
    · simp [aget?, hk] at h ⊢
      exact ih h

theorem aget?_append_of_some [DecidableEq α] {l : List (α × β)} (l' : List (α × β)) {a : α}
    {v : β} (h : aget? l a = some v) : aget? (l ++ l') a = some v := by
  induction l with
  | nil => simp [aget?] at h
  | cons kv rest ih =>
    obtain ⟨k, w⟩ := kv
    by_cases hk : k = a
    · simp [aget?, hk] at h ⊢; exact h
    · simp [aget?, hk] at h ⊢
      exact ih h

theorem mem_insertS [DecidableEq α] (a b : α) (l : List α) :
    b ∈ insertS a l ↔ b = a ∨ b ∈ l := by
  unfold insertS
  split
  · exact ⟨Or.inr, fun x => x.elim (fun e => e ▸ (by assumption)) id⟩
  · exact List.mem_cons

/-! ### Adjacent-pipe analysis of the canonical serialization -/

theorem hasPP_pp (l : List Char) : hasPP ('|' :: '|' :: l) = true := by
  simp [hasPP]

theorem hasPP_cons_of {l : List Char} (a : Char) (h : hasPP l = true) :
    hasPP (a :: l) = true := by
  cases l with
  | nil => simp [hasPP] at h
  | cons b rest => simp [hasPP] at h ⊢; simp [h]

theorem hasPP_append_of (xs : List Char) {ys : List Char} (h : hasPP ys = true) :
    hasPP (xs ++ ys) = true := by
  induction xs with
  | nil => simpa using h
  | cons a xs ih => rw [List.cons_append]; exact hasPP_cons_of a ih

theorem hasPP_mid (xs ys : List Char) : hasPP (xs ++ '|' :: '|' :: ys) = true :=
  hasPP_append_of xs (hasPP_pp ys)

theorem hasPP_sep_chunk (xs ys : List Char) :
    hasPP (xs ++ ' ' :: '|' :: '|' :: ' ' :: ys) = true :=
  hasPP_append_of xs (hasPP_cons_of ' ' (hasPP_pp (' ' :: ys)))

theorem hasPP_tail {a : Char} {l : List Char} (h : hasPP (a :: l) = false) :
    hasPP l = false := by
  cases l with
  | nil => rfl
  | cons b rest =>
    simp [hasPP] at h
    simp [hasPP, h.2]


/-- Unique decomposition around the first separator occurrence: when neither
head segment contains two adjacent pipes, equal serializations split the
same way at the separator. -/
theorem sep_split : ∀ (f g r s : List Char), hasPP f = false → hasPP g = false →
    f ++ ' ' :: '|' :: '|' :: ' ' :: r = g ++ ' ' :: '|' :: '|' :: ' ' :: s →
    f = g ∧ r = s := by
  intro f
  induction f with
  | nil =>
    intro g r s _ hg h
    rw [List.nil_append] at h
    cases g with
    | nil => exact ⟨rfl, by simpa using h⟩
    | cons b g' =>
      rw [List.cons_append] at h
      injection h with hb h
      cases g' with
      | nil =>
        rw [List.nil_append] at h
        injection h with hp _
        exact absurd hp (by decide)
      | cons b2 g'' =>
        rw [List.cons_append] at h
        injection h with hb2 h
        cases g'' with
        | nil =>
          rw [List.nil_append] at h
          injection h with hp _
          exact absurd hp (by decide)
        | cons b3 g3 =>
          rw [List.cons_append] at h
          injection h with hb3 h
          rw [← hb2, ← hb3] at hg
          have h2 := hasPP_mid [b] g3
          rw [List.singleton_append, hg] at h2
          exact absurd h2 (by decide)
  | cons a f' ih =>
    intro g r s hf hg h
    cases g with
    | nil =>
      rw [List.cons_append, List.nil_append] at h
      injection h with ha h
      cases f' with
      | nil =>
        rw [List.nil_append] at h
        injection h with hp _
        exact absurd hp (by decide)
      | cons c f'' =>
        rw [List.cons_append] at h
        injection h with hc h
        cases f'' with
        | nil =>
          rw [List.nil_append] at h
          injection h with hp _
          exact absurd hp (by decide)
        | cons c2 f3 =>
          rw [List.cons_append] at h
          injection h with hc2 h
          rw [hc, hc2] at hf
          have h2 := hasPP_mid [a] f3
          rw [List.singleton_append, hf] at h2
          exact absurd h2 (by decide)
    | cons b g' =>
      rw [List.cons_append, List.cons_append] at h
      injection h with hab h
      obtain ⟨h1, h2⟩ := ih g' r s (hasPP_tail hf) (hasPP_tail hg) h
      exact ⟨by rw [hab, h1], h2⟩

/-- When no part of either identity contains two adjacent pipes, the
canonical serialization `PersonName.__repr__` is injective. -/
theorem pRepr_inj {m n : PersonName} (hm : NoPPn m) (hn : NoPPn n)
    (h : pRepr m = pRepr n) : m = n := by
  obtain ⟨hm1, hm2, hm3⟩ := hm
  obtain ⟨hn1, hn2, hn3⟩ := hn
  by_cases jm : m.jr = ""
  · by_cases jn : n.jr = ""
    · by_cases fm : m.first = ""
      · by_cases fn : n.first = ""
        · rw [pRepr, pRepr] at h
          simp [jm, jn, fm, fn] at h
          exact pn_ext (fm.trans fn.symm) h (jm.trans jn.symm)
        · rw [pRepr, pRepr] at h
          simp [jm, jn, fm, fn] at h
          have hd := congrArg String.data h
          simp only [String.data_append, sepD, List.append_assoc, List.cons_append,
            List.nil_append] at hd
          rw [hd, hasPP_sep_chunk] at hm2
          exact absurd hm2 (by decide)
      · by_cases fn : n.first = ""
        · rw [pRepr, pRepr] at h
          simp [jm, jn, fm, fn] at h
          have hd := congrArg String.data h
          simp only [String.data_append, sepD, List.append_assoc, List.cons_append,
            List.nil_append] at hd
          rw [← hd, hasPP_sep_chunk] at hn2
          exact absurd hn2 (by decide)
        · rw [pRepr, pRepr] at h
          simp [jm, jn, fm, fn] at h
          have hd := congrArg String.data h
          simp only [String.data_append, sepD, List.append_assoc, List.cons_append,
            List.nil_append] at hd
          obtain ⟨e1, e2⟩ := sep_split _ _ _ _ hm1 hn1 hd
          exact pn_ext (strExt e1) (strExt e2) (jm.trans jn.symm)
    · by_cases fm : m.first = ""
      · rw [pRepr, pRepr] at h
        simp [jm, jn, fm] at h
        have hd := congrArg String.data h
        simp only [String.data_append, sepD, List.append_assoc, List.cons_append,
          List.nil_append] at hd
        rw [hd, hasPP_sep_chunk] at hm2
        exact absurd hm2 (by decide)
      · rw [pRepr, pRepr] at h
        simp [jm, jn, fm] at h
        have hd := congrArg String.data h
        simp only [String.data_append, sepD, List.append_assoc, List.cons_append,
          List.nil_append] at hd
        obtain ⟨_, e2⟩ := sep_split _ _ _ _ hm1 hn1 hd
        rw [e2, hasPP_sep_chunk] at hm2
        exact absurd hm2 (by decide)
  · by_cases jn : n.jr = ""
    · by_cases fn : n.first = ""
      · rw [pRepr, pRepr] at h
        simp [jm, jn, fn] at h
        have hd := congrArg String.data h
        simp only [String.data_append, sepD, List.append_assoc, List.cons_append,
          List.nil_append] at hd
        rw [← hd, hasPP_sep_chunk] at hn2
        exact absurd hn2 (by decide)
      · rw [pRepr, pRepr] at h
        simp [jm, jn, fn] at h
        have hd := congrArg String.data h
        simp only [String.data_append, sepD, List.append_assoc, List.cons_append,
          List.nil_append] at hd
        obtain ⟨_, e2⟩ := sep_split _ _ _ _ hm1 hn1 hd
        rw [← e2, hasPP_sep_chunk] at hn2
        exact absurd hn2 (by decide)
    · rw [pRepr, pRepr] at h
      simp [jm, jn] at h
      have hd := congrArg String.data h
      simp only [String.data_append, sepD, List.append_assoc, List.cons_append,
        List.nil_append] at hd
      obtain ⟨e1, hrest⟩ := sep_split _ _ _ _ hm1 hn1 hd
      obtain ⟨e2, e3⟩ := sep_split _ _ _ _ hm2 hn2 hrest
      exact pn_ext (strExt e1) (strExt e2) (strExt e3)

/-! ### Properties of the slug-generation loop -/

theorem natStrAux_eq : ∀ (f n : Nat), n ≤ f →
    natStrAux f n = ((Nat.digits 10 n).map digitChar).reverse := by
  intro f
  induction f with
  | zero =>
    intro n hn
    rw [Nat.le_zero] at hn
    subst hn
    simp [natStrAux]
  | succ f ih =>
    intro n hn
    match n with
    | 0 => simp [natStrAux]
    | m + 1 =>
      rw [natStrAux]
      have hdiv : (m + 1) / 10 < m + 1 := Nat.div_lt_self (Nat.succ_pos m) (by omega)
      rw [ih ((m + 1) / 10) (by omega)]
      rw [Nat.digits_def' (by norm_num : (1 : Nat) < 10) (Nat.succ_pos m)]
      simp

theorem digitChar_inj_aux : ∀ a ∈ List.range 10, ∀ b ∈ List.range 10,
    digitChar a = digitChar b → a = b := by decide

theorem digitChar_inj {a b : Nat} (ha : a < 10) (hb : b < 10)
    (h : digitChar a = digitChar b) : a = b :=
  digitChar_inj_aux a (List.mem_range.mpr ha) b (List.mem_range.mpr hb) h

theorem map_digitChar_inj : ∀ (l1 l2 : List Nat), (∀ d ∈ l1, d < 10) → (∀ d ∈ l2, d < 10) →
    l1.map digitChar = l2.map digitChar → l1 = l2 := by
  intro l1
  induction l1 with
  | nil =>
    intro l2 _ _ h
    cases l2 with
    | nil => rfl
    | cons b l2 => simp at h
  | cons a l1 ih =>
    intro l2 h1 h2 h
    cases l2 with
    | nil => simp at h
    | cons b l2 =>
      simp only [List.map_cons, List.cons.injEq] at h
      have ha := h1 a (by simp)
      have hb := h2 b (by simp)
      rw [digitChar_inj ha hb h.1,
        ih l2 (fun d hd => h1 d (by simp [hd])) (fun d hd => h2 d (by simp [hd])) h.2]

theorem natStr_inj {m n : Nat} (hm : 0 < m) (hn : 0 < n) (h : natStr m = natStr n) :
    m = n := by
  rw [natStr, natStr, if_neg (by omega), if_neg (by omega)] at h
  have hd : natStrAux m m = natStrAux n n := congrArg String.data h
  rw [natStrAux_eq m m le_rfl, natStrAux_eq n n le_rfl] at hd
  have h1 := List.reverse_injective hd
  have h2 := map_digitChar_inj _ _ (fun d hd => Nat.digits_lt_base (by norm_num) hd)
    (fun d hd => Nat.digits_lt_base (by norm_num) hd) h1
  calc m = Nat.ofDigits 10 (Nat.digits 10 m) := (Nat.ofDigits_digits 10 m).symm
    _ = Nat.ofDigits 10 (Nat.digits 10 n) := by rw [h2]
    _ = n := Nat.ofDigits_digits 10 n

theorem natStr_ne_empty (n : Nat) : natStr n ≠ "" := by
  by_cases h0 : n = 0
  · rw [natStr, if_pos h0]; decide
  · rw [natStr, if_neg h0]
    intro h
    have hd : natStrAux n n = [] := congrArg String.data h
    rw [natStrAux_eq n n le_rfl] at hd
    simp at hd
    exact Nat.digits_ne_nil_iff_ne_zero.mpr h0 hd

theorem slugCand_inj (base : String) : Function.Injective (slugCand base) := by
  intro i j h
  match i, j with
  | 0, 0 => rfl
  | 0, k + 1 =>
    exfalso
    have hd := congrArg String.data h
    simp only [slugCand, String.data_append] at hd
    have hlen := congrArg List.length hd
    simp only [List.length_append] at hlen
    have : (natStr (k + 1)).data.length = 0 := by omega
    rw [List.length_eq_zero] at this
    exact natStr_ne_empty (k + 1) (strExt (this.trans emptyD.symm))
  | k + 1, 0 =>
    exfalso
    have hd := congrArg String.data h
    simp only [slugCand, String.data_append] at hd
    have hlen := congrArg List.length hd
    simp only [List.length_append] at hlen
    have : (natStr (k + 1)).data.length = 0 := by omega
    rw [List.length_eq_zero] at this
    exact natStr_ne_empty (k + 1) (strExt (this.trans emptyD.symm))
  | k + 1, j + 1 =>
    have hd := congrArg String.data h
    simp only [slugCand, String.data_append] at hd
    have h2 := List.append_cancel_left hd
    have := natStr_inj (Nat.succ_pos k) (Nat.succ_pos j) (strExt h2)
    omega

theorem slugSearch_path (used : List String) (base : String) :
    ∀ (fuel i : Nat), (∀ k ≤ fuel, slugCand base (i + k) ∈ used) ∨
      slugSearch used base i fuel ∉ used := by
  intro fuel
  induction fuel with
  | zero =>
    intro i
    by_cases h : slugCand base i ∈ used
    · left
      intro k hk
      rw [Nat.le_zero] at hk
      subst hk
      simpa using h
    · right
      simpa [slugSearch] using h
  | succ fuel ih =>
    intro i
    by_cases h : slugCand base i ∈ used
    · rcases ih (i + 1) with hall | hfree
      · left
        intro k hk
        match k with
        | 0 => simpa using h
        | k + 1 =>
          have e : i + (k + 1) = i + 1 + k := by omega
          rw [e]
          exact hall k (by omega)
      · right
        simpa [slugSearch, h] using hfree
    · right
      simp [slugSearch, h]

theorem freshSlug_not_mem (used : List String) (base : String) :
    freshSlug used base ∉ used := by
  unfold freshSlug
  rcases slugSearch_path used base (used.length + 1) 0 with hall | hfree
  · exfalso
    have hshape : ∀ x ∈ (List.range (used.length + 2)).map (slugCand base), x ∈ used := by
      intro x hx
      simp only [List.mem_map, List.mem_range] at hx
      obtain ⟨k, hk, rfl⟩ := hx
      simpa using hall k (by omega)
    have hnodup : ((List.range (used.length + 2)).map (slugCand base)).Nodup :=
      (List.nodup_range _).map (slugCand_inj base)
    have hsub : ((List.range (used.length + 2)).map (slugCand base)).toFinset ⊆
        used.toFinset := by
      intro x hx
      rw [List.mem_toFinset] at hx ⊢
      exact hshape x hx
    have hcard := Finset.card_le_card hsub
    rw [List.toFinset_card_of_nodup hnodup] at hcard
    have hle := List.toFinset_card_le used
    simp at hcard
    omega
  · exact hfree

/-! ### Structural lemmas about `register` -/

theorem dget_asetd [DecidableEq α] (l : List (α × β)) (a b : α) (d d' : β) (f : β → β) :
    dget (asetd l a d f) b d' = if b = a then f (dget l a d) else dget l b d' := by
  unfold dget
  rw [aget?_asetd]
  by_cases h : b = a <;> simp [h, dget]

theorem register_variants (sl : String → String) (st : PersonIndex) (n : PersonName)
    (p : Paper) (r : String) : (register sl st n p r).2.variants = st.variants := by
  by_cases h : (aget? st.names (pRepr (getCanonicalVariant st.variants n))).isSome = true <;>
    simp [register, h]

theorem register_papers (sl : String → String) (st : PersonIndex) (n : PersonName)
    (p : Paper) (r : String) :
    (register sl st n p r).2.papers =
      asetd st.papers (getCanonicalVariant st.variants n) []
        (fun rm => asetd rm r [] (fun l => l ++ [p.full_id])) := by
  by_cases h : (aget? st.names (pRepr (getCanonicalVariant st.variants n))).isSome = true <;>
    simp [register, h]

theorem register_coauthors (sl : String → String) (st : PersonIndex) (n : PersonName)
    (p : Paper) (r : String) :
    (register sl st n p r).2.coauthors =
      (p.get r).foldl (coauthorStep st.variants (getCanonicalVariant st.variants n))
        st.coauthors := by
  by_cases h : (aget? st.names (pRepr (getCanonicalVariant st.variants n))).isSome = true <;>
    simp [register, h]

theorem register_state_known (sl : String → String) (st : PersonIndex) (n : PersonName)
    (p : Paper) (r : String)
    (h : (aget? st.names (pRepr (getCanonicalVariant st.variants n))).isSome = true) :
    (register sl st n p r).2.names = st.names ∧
    (register sl st n p r).2.slugs = st.slugs ∧
    (register sl st n p r).2.allSlugs = st.allSlugs := by
  refine ⟨?_, ?_, ?_⟩ <;> simp [register, h]

theorem register_state_fresh (sl : String → String) (st : PersonIndex) (n : PersonName)
    (p : Paper) (r : String)
    (h : aget? st.names (pRepr (getCanonicalVariant st.variants n)) = none) :
    (register sl st n p r).2.names =
      st.names ++ [(pRepr (getCanonicalVariant st.variants n), getCanonicalVariant st.variants n)] ∧
    (register sl st n p r).2.slugs =
      st.slugs ++ [(getCanonicalVariant st.variants n,
        freshSlug st.allSlugs (sl (pRepr (getCanonicalVariant st.variants n))))] ∧
    (register sl st n p r).2.allSlugs =
      insertS (freshSlug st.allSlugs (sl (pRepr (getCanonicalVariant st.variants n))))
        st.allSlugs := by
  refine ⟨?_, ?_, ?_⟩ <;> simp [register, h]

theorem register_SlugInv (sl : String → String) (st : PersonIndex) (n : PersonName)
    (p : Paper) (r : String) (h : SlugInv st) : SlugInv (register sl st n p r).2 := by
  obtain ⟨h1, h2, h3⟩ := h
  by_cases hc : (aget? st.names (pRepr (getCanonicalVariant st.variants n))).isSome = true
  · obtain ⟨_, es, ea⟩ := register_state_known sl st n p r hc
    exact ⟨by rw [es]; exact h1, by rw [es, ea]; exact h2, by rw [ea]; exact h3⟩
  · have hnone : aget? st.names (pRepr (getCanonicalVariant st.variants n)) = none := by
      cases he : aget? st.names (pRepr (getCanonicalVariant st.variants n)) with
      | none => rfl
      | some v => rw [he] at hc; simp at hc
    obtain ⟨_, es, ea⟩ := register_state_fresh sl st n p r hnone
    have hfresh := freshSlug_not_mem st.allSlugs
      (sl (pRepr (getCanonicalVariant st.variants n)))
    refine ⟨?_, ?_, ?_⟩
    · rw [es, List.map_append]
      rw [List.nodup_append]
      refine ⟨h1, by simp, ?_⟩
      intro x hx
      simp only [List.map_cons, List.map_nil, List.mem_cons, List.not_mem_nil,
        or_false, List.mem_singleton]
      intro he
      exact hfresh (he ▸ (h2 x hx).1)
    · rw [es, ea, List.map_append]
      intro v hv
      rcases List.mem_append.mp hv with hold | hnew
      · exact ⟨(mem_insertS _ _ _).mpr (Or.inr (h2 v hold).1), (h2 v hold).2⟩
      · simp only [List.map_cons, List.map_nil, List.mem_singleton] at hnew
        subst hnew
        refine ⟨(mem_insertS _ _ _).mpr (Or.inl rfl), ?_⟩
        intro he
        exact hfresh (he ▸ h3)
    · rw [ea]
      exact (mem_insertS _ _ _).mpr (Or.inr h3)

theorem run_SlugInv (sl : String → String) :
    ∀ (seq : List (PersonName × Paper × String)) (st : PersonIndex),
      SlugInv st → SlugInv (runRegisters sl st seq) := by
  intro seq
  induction seq with
  | nil => intro st h; exact h
  | cons e rest ih =>
    intro st h
    obtain ⟨n, p, r⟩ := e
    exact ih _ (register_SlugInv sl st n p r h)

theorem coFold_aget (vt : List (String × String)) (c : PersonName) (m : PersonName)
    (hm : m ≠ c) : ∀ (L : List PersonName) (co : List (PersonName × List (PersonName × Nat))),
    aget? (L.foldl (coauthorStep vt c) co) m = aget? co m := by
  intro L
  induction L with
  | nil => intro co; rfl
  | cons x L ih =>
    intro co
    rw [List.foldl_cons, ih]
    unfold coauthorStep
    by_cases hx : getCanonicalVariant vt x = c
    · rw [if_pos hx]
    · rw [if_neg hx, aget?_asetd, if_neg hm]

theorem register_keysAbsent (sl : String → String) (st : PersonIndex) (n : PersonName)
    (p : Paper) (r : String) (m : PersonName)
    (hm : m ≠ getCanonicalVariant st.variants n) (h : keysAbsent st m) :
    keysAbsent (register sl st n p r).2 m := by
  obtain ⟨hp, hco, hs⟩ := h
  refine ⟨?_, ?_, ?_⟩
  · rw [register_papers, aget?_asetd, if_neg hm]
    · exact hp
  · rw [register_coauthors, coFold_aget st.variants _ m hm]
    · -- the coauthors of `st2` coincide with those of `st`
      exact hco
  · by_cases hc : (aget? st.names (pRepr (getCanonicalVariant st.variants n))).isSome = true
    · rw [(register_state_known sl st n p r hc).2.1]
      exact hs
    · have hnone : aget? st.names (pRepr (getCanonicalVariant st.variants n)) = none := by
        cases he : aget? st.names (pRepr (getCanonicalVariant st.variants n)) with
        | none => rfl
        | some v => rw [he] at hc; simp at hc
      rw [(register_state_fresh sl st n p r hnone).2.1]
      rw [aget?_append_of_none _ hs]
      simp [aget?, Ne.symm hm]

theorem run_variants (sl : String → String) :
    ∀ (seq : List (PersonName × Paper × String)) (st : PersonIndex),
      (runRegisters sl st seq).variants = st.variants := by
  intro seq
  induction seq with
  | nil => intro st; rfl
  | cons e rest ih =>
    intro st
    obtain ⟨n, p, r⟩ := e
    rw [runRegisters, ih, register_variants]

theorem run_keysAbsent (sl : String → String) :
    ∀ (seq : List (PersonName × Paper × String)) (st : PersonIndex) (m : PersonName),
      (∀ e ∈ seq, m ≠ getCanonicalVariant st.variants e.1) → keysAbsent st m →
      keysAbsent (runRegisters sl st seq) m := by
  intro seq
  induction seq with
  | nil => intro st m _ h; exact h
  | cons e rest ih =>
    intro st m hall h
    obtain ⟨n, p, r⟩ := e
    rw [runRegisters]
    refine ih _ m ?_ (register_keysAbsent sl st n p r m (hall (n, p, r) (List.mem_cons_self _ _)) h)
    intro e' he'
    rw [register_variants]
    exact hall e' (by simp [he'])

theorem coStep_view (vt : List (String × String)) (c : PersonName)
    (co : List (PersonName × List (PersonName × Nat))) (author m b : PersonName) :
    dget (dget (coauthorStep vt c co author) m []) b 0 =
      dget (dget co m []) b 0 +
        (if m = c ∧ b ≠ c ∧ getCanonicalVariant vt author = b then 1 else 0) := by
  unfold coauthorStep
  by_cases hx : getCanonicalVariant vt author = c
  · rw [if_pos hx, if_neg]
    · omega
    · rintro ⟨_, h2, h3⟩
      exact h2 (h3.symm.trans hx)
  · rw [if_neg hx, dget_asetd]
    by_cases hm : m = c
    · rw [if_pos hm, dget_asetd]
      by_cases hb : b = getCanonicalVariant vt author
      · rw [if_pos hb, if_pos ⟨hm, fun e => hx (hb ▸ e), hb.symm⟩]
        rw [hm, hb]
      · rw [if_neg hb, if_neg]
        · rw [hm]; omega
        · rintro ⟨_, _, h3⟩
          exact hb h3.symm
    · rw [if_neg hm, if_neg]
      omega
      rintro ⟨h1, _, _⟩
      exact hm h1

theorem coFold_view (vt : List (String × String)) (c : PersonName) :
    ∀ (L : List PersonName) (co : List (PersonName × List (PersonName × Nat)))
      (m b : PersonName),
    dget (dget (L.foldl (coauthorStep vt c) co) m []) b 0 =
      dget (dget co m []) b 0 +
        (if m = c ∧ b ≠ c then countEq b (L.map (getCanonicalVariant vt)) else 0) := by
  intro L
  induction L with
  | nil => intro co m b; simp [countEq]
  | cons x L ih =>
    intro co m b
    rw [List.foldl_cons, ih, coStep_view]
    simp only [List.map_cons, countEq]
    by_cases hm : m = c
    · by_cases hb : b = c
      · have : ¬ (m = c ∧ b ≠ c ∧ getCanonicalVariant vt x = b) := by
          rintro ⟨_, h2, _⟩; exact h2 hb
        rw [if_neg this, if_neg (by rintro ⟨_, h2⟩; exact h2 hb),
          if_neg (by rintro ⟨_, h2⟩; exact h2 hb)]
      · by_cases hx : getCanonicalVariant vt x = b
        · rw [if_pos ⟨hm, hb, hx⟩, if_pos ⟨hm, hb⟩, if_pos ⟨hm, hb⟩, if_pos hx]
          omega
        · rw [if_neg (by rintro ⟨_, _, h3⟩; exact hx h3), if_pos ⟨hm, hb⟩,
            if_pos ⟨hm, hb⟩, if_neg hx]
          omega
    · rw [if_neg (by rintro ⟨h1, _⟩; exact hm h1), if_neg (by rintro ⟨h1, _⟩; exact hm h1),
        if_neg (by rintro ⟨h1, _⟩; exact hm h1)]

theorem register_names_mono (sl : String → String) (st : PersonIndex) (n : PersonName)
    (p : Paper) (r : String) (k : String) (v : PersonName)
    (h : aget? st.names k = some v) : aget? (register sl st n p r).2.names k = some v := by
  by_cases hc : (aget? st.names (pRepr (getCanonicalVariant st.variants n))).isSome = true
  · rw [(register_state_known sl st n p r hc).1]
    exact h
  · have hnone : aget? st.names (pRepr (getCanonicalVariant st.variants n)) = none := by
      cases he : aget? st.names (pRepr (getCanonicalVariant st.variants n)) with
      | none => rfl
      | some w => rw [he] at hc; simp at hc
    rw [(register_state_fresh sl st n p r hnone).1]
    exact aget?_append_of_some _ h

theorem run_names_mono (sl : String → String) :
    ∀ (seq : List (PersonName × Paper × String)) (st : PersonIndex) (k : String)
      (v : PersonName), aget? st.names k = some v →
      aget? (runRegisters sl st seq).names k = some v := by
  intro seq
  induction seq with
  | nil => intro st k v h; exact h
  | cons e rest ih =>
    intro st k v h
    obtain ⟨n, p, r⟩ := e
    exact ih _ k v (register_names_mono sl st n p r k v h)

theorem register_RegInv (sl : String → String) (st : PersonIndex) (n : PersonName)
    (p : Paper) (r : String) (hno : NoPPn (getCanonicalVariant st.variants n))
    (h : RegInv st) :
    RegInv (register sl st n p r).2 ∧
      aget? (register sl st n p r).2.names (pRepr (getCanonicalVariant st.variants n)) =
        some (getCanonicalVariant st.variants n) := by
  obtain ⟨h1, h2, h3⟩ := h
  by_cases hc : (aget? st.names (pRepr (getCanonicalVariant st.variants n))).isSome = true
  · obtain ⟨en, es, _⟩ := register_state_known sl st n p r hc
    obtain ⟨v, hv⟩ := Option.isSome_iff_exists.mp hc
    have hmem := aget?_mem hv
    obtain ⟨hkey, hvno⟩ := h2 _ hmem
    have : v = getCanonicalVariant st.variants n := pRepr_inj hvno hno hkey.symm
    subst this
    exact ⟨⟨by rw [en, es]; exact h1, by rw [en]; exact h2, by rw [en]; exact h3⟩,
      by rw [en]; exact hv⟩
  · have hnone : aget? st.names (pRepr (getCanonicalVariant st.variants n)) = none := by
      cases he : aget? st.names (pRepr (getCanonicalVariant st.variants n)) with
      | none => rfl
      | some w => rw [he] at hc; simp at hc
    obtain ⟨en, es, _⟩ := register_state_fresh sl st n p r hnone
    refine ⟨⟨?_, ?_, ?_⟩, ?_⟩
    · rw [en, es, List.map_append, List.map_append, h1]
      simp
    · rw [en]
      intro kv hkv
      rcases List.mem_append.mp hkv with hold | hnew
      · exact h2 kv hold
      · simp only [List.mem_singleton] at hnew
        subst hnew
        exact ⟨rfl, hno⟩
    · rw [en, List.map_append, List.nodup_append]
      refine ⟨h3, by simp, ?_⟩
      intro x hx
      simp only [List.map_cons, List.map_nil, List.mem_singleton]
      intro he
      have := (aget?_eq_none_iff st.names (pRepr (getCanonicalVariant st.variants n))).mp hnone
      exact this (he ▸ hx)
    · rw [en, aget?_append_of_none _ hnone]
      simp [aget?]

theorem run_RegInv (sl : String → String) :
    ∀ (seq : List (PersonName × Paper × String)) (st : PersonIndex), RegInv st →
      (∀ e ∈ seq, NoPPn (getCanonicalVariant st.variants e.1)) →
      RegInv (runRegisters sl st seq) ∧
        ∀ e ∈ seq, aget? (runRegisters sl st seq).names
            (pRepr (getCanonicalVariant st.variants e.1)) =
          some (getCanonicalVariant st.variants e.1) := by
  intro seq
  induction seq with
  | nil => intro st h _; exact ⟨h, by simp⟩
  | cons e rest ih =>
    intro st h hall
    obtain ⟨n, p, r⟩ := e
    have hhead := hall (n, p, r) (List.mem_cons_self _ _)
    obtain ⟨hinv', hsome⟩ := register_RegInv sl st n p r hhead h
    have hrest : ∀ e' ∈ rest, NoPPn (getCanonicalVariant (register sl st n p r).2.variants e'.1) := by
      intro e' he'
      rw [register_variants]
      exact hall e' (by simp [he'])
    obtain ⟨hinv'', hall''⟩ := ih (register sl st n p r).2 hinv' hrest
    rw [runRegisters]
    refine ⟨hinv'', ?_⟩
    intro e' he'
    rcases List.mem_cons.mp he' with he1 | he2
    · subst he1
      exact run_names_mono sl rest _ _ _ hsome
    · have := hall'' e' he2
      rw [register_variants] at this
      exact this

/-! ### Concrete evaluations of the slug loop -/

theorem natStr_one : natStr 1 = "1" := rfl

theorem natStr_two : natStr 2 = "2" := rfl

theorem gCV_nil (n : PersonName) : getCanonicalVariant [] n = n := rfl

theorem str_append_ne_left (base s : String) (hs : s ≠ "") : base ++ s ≠ base := by
  intro h
  have hd := congrArg String.data h
  rw [String.data_append] at hd
  have hlen := congrArg List.length hd
  rw [List.length_append] at hlen
  have h0 : s.data.length = 0 := by omega
  rw [List.length_eq_zero] at h0
  exact hs (strExt (h0.trans emptyD.symm))

theorem str_append_ne_empty (base s : String) (hs : s ≠ "") : base ++ s ≠ "" := by
  intro h
  have hd := congrArg String.data h
  rw [String.data_append, emptyD] at hd
  rw [List.append_eq_nil] at hd
  exact hs (strExt (hd.2.trans emptyD.symm))

theorem str_append_cancel (base s t : String) (h : base ++ s = base ++ t) : s = t := by
  have hd := congrArg String.data h
  rw [String.data_append, String.data_append] at hd
  exact strExt (List.append_cancel_left hd)

theorem slugSearch_succ (used : List String) (base : String) (i fuel : Nat) :
    slugSearch used base i (fuel + 1) =
      if slugCand base i ∈ used then slugSearch used base (i + 1) fuel
      else slugCand base i := rfl

theorem freshSlug_one (base : String) (hb : base ≠ "") : freshSlug [""] base = base := by
  have h0 : slugCand base 0 ∉ ([""] : List String) := by simp [slugCand, hb]
  show slugSearch [""] base 0 2 = base
  rw [slugSearch_succ, if_neg h0]
  rfl

theorem freshSlug_two (base : String) :
    freshSlug [base, ""] base = base ++ "1" := by
  have h0 : slugCand base 0 ∈ [base, ""] := by simp [slugCand]
  have h1 : slugCand base 1 ∉ [base, ""] := by
    simp only [slugCand, natStr_one, List.mem_cons, List.not_mem_nil, or_false,
      List.mem_singleton, not_or]
    exact ⟨str_append_ne_left base "1" (by decide), str_append_ne_empty base "1" (by decide)⟩
  show slugSearch [base, ""] base 0 3 = base ++ "1"
  rw [slugSearch_succ, if_pos h0, slugSearch_succ, if_neg h1]
  show base ++ natStr 1 = base ++ "1"
  rw [natStr_one]

theorem freshSlug_three (base : String) :
    freshSlug [base ++ "1", base, ""] base = base ++ "2" := by
  have h0 : slugCand base 0 ∈ [base ++ "1", base, ""] := by simp [slugCand]
  have h1 : slugCand base 1 ∈ [base ++ "1", base, ""] := by
    simp [slugCand, natStr_one]
  have h2 : slugCand base 2 ∉ [base ++ "1", base, ""] := by
    simp only [slugCand, natStr_two, List.mem_cons, List.not_mem_nil, or_false,
      List.mem_singleton, not_or]
    refine ⟨?_, str_append_ne_left base "2" (by decide),
      str_append_ne_empty base "2" (by decide)⟩
    intro h
    have := str_append_cancel base "2" "1" h
    exact absurd this (by decide)
  show slugSearch [base ++ "1", base, ""] base 0 4 = base ++ "2"
  rw [slugSearch_succ, if_pos h0, slugSearch_succ, if_pos h1, slugSearch_succ, if_neg h2]
  show base ++ natStr 2 = base ++ "2"
  rw [natStr_two]

/-! ### Claim theorems -/

/-- C7: the canonical serialization follows exactly the asymmetric rule of
`PersonName.__repr__`: with a non-empty suffix it emits all three parts,
else with a non-empty first name it emits two parts, else the bare last
name; in particular the three concrete examples of the specification. -/
theorem serialization_asymmetric_rule :
    (∀ n : PersonName,
      (n.jr ≠ "" → pRepr n = n.first ++ " || " ++ n.last ++ " || " ++ n.jr) ∧
      (n.jr = "" → n.first ≠ "" → pRepr n = n.first ++ " || " ++ n.last) ∧
      (n.jr = "" → n.first = "" → pRepr n = n.last)) ∧
    pRepr (PersonName.mkP "" "Smith" "") = "Smith" ∧
    pRepr (PersonName.mkP "Jane" "Smith" "") = "Jane || Smith" ∧
    pRepr (PersonName.mkP "Jane" "Smith" "Jr.") = "Jane || Smith || Jr." := by
  refine ⟨fun n => ⟨?_, ?_, ?_⟩, by decide, by decide, by decide⟩
  · intro h
    rw [pRepr, if_pos h]
  · intro h1 h2
    rw [pRepr, if_neg (by simp [h1]), if_pos h2]
  · intro h1 h2
    rw [pRepr, if_neg (by simp [h1]), if_neg (by simp [h2])]

/-- Witness for C7 at a concrete identity with all parts non-empty. -/
theorem serialization_asymmetric_rule_witness :
    pRepr ⟨"A", "B", "C"⟩ = "A || B || C" :=
  (serialization_asymmetric_rule.1 ⟨"A", "B", "C"⟩).1 (by decide)

/-- C1: evaluation of the round-trip at the bare-last identity
`("", "Smith", "")`: the serialization is `"Smith"`, but parsing it back
yields `("Smith", "", "")`, so `from_repr` does not invert `__repr__` even
though the last part is non-empty and no part contains the separator. -/
theorem roundtrip_fails_on_bare_last :
    pRepr (PersonName.mkP "" "Smith" "") = "Smith" ∧
    PersonName.fromRepr (pRepr (PersonName.mkP "" "Smith" "")) = ⟨"Smith", "", ""⟩ ∧
    PersonName.fromRepr (pRepr (PersonName.mkP "" "Smith" "")) ≠
      PersonName.mkP "" "Smith" "" := by
  decide

/-- C2: evaluation of `from_repr` on a separator-free input: the whole
string lands in `first`, not in `last` as the specification states. -/
theorem no_separator_parses_to_first :
    pySplitSep "Smith" = ["Smith"] ∧
    PersonName.fromRepr "Smith" = ⟨"Smith", "", ""⟩ ∧
    PersonName.fromRepr "Smith" ≠ ⟨"", "Smith", ""⟩ := by
  decide

/-- C3: after any finite sequence of `register` calls starting from a fresh
index (with any variant table and any slugify routine), the slug values are
pairwise distinct and none is the empty string. -/
theorem slug_values_distinct_nonempty (sl : String → String) (vt : List (String × String))
    (seq : List (PersonName × Paper × String)) :
    ((runRegisters sl (initIndex vt) seq).slugs.map Prod.snd).Nodup ∧
    ∀ v ∈ (runRegisters sl (initIndex vt) seq).slugs.map Prod.snd, v ≠ "" := by
  have h := run_SlugInv sl seq (initIndex vt)
    ⟨by simp [initIndex], by simp [initIndex], by simp [initIndex]⟩
  exact ⟨h.1, fun v hv => (h.2.1 v hv).2⟩

/-- C5 counterexample: with a variant table whose canonical value is itself
a variant key, canonicalization is not idempotent. -/
theorem canonicalize_not_idempotent :
    getCanonicalVariant [("A || B", "C || D"), ("C || D", "E || F")]
        (getCanonicalVariant [("A || B", "C || D"), ("C || D", "E || F")]
          ⟨"A", "B", ""⟩) ≠
      getCanonicalVariant [("A || B", "C || D"), ("C || D", "E || F")]
        ⟨"A", "B", ""⟩ := by
  decide

/-- C5 amended: for a variant table none of whose stored canonical values
re-serializes to a variant key, `get_canonical_variant` is idempotent — in
particular a variant and its canonical form resolve to the same identity. -/
theorem canonicalize_idempotent_of_closed (vt : List (String × String))
    (h : ∀ p ∈ vt, aget? vt (pRepr (PersonName.fromRepr p.2)) = none) (x : PersonName) :
    getCanonicalVariant vt (getCanonicalVariant vt x) = getCanonicalVariant vt x := by
  cases he : aget? vt (pRepr x) with
  | none =>
    have e1 : getCanonicalVariant vt x = x := by
      unfold getCanonicalVariant
      rw [he]
    rw [e1]
    exact e1
  | some v =>
    have e1 : getCanonicalVariant vt x = PersonName.fromRepr v := by
      unfold getCanonicalVariant
      rw [he]
    have hv := h (pRepr x, v) (aget?_mem he)
    rw [e1]
    unfold getCanonicalVariant
    rw [hv]

/-- Witness for C5 at a concrete one-entry variant table and a name whose
serialization is the variant key. -/
theorem canonicalize_idempotent_witness :
    (∀ p ∈ [("J. Smith", "Jane || Smith")],
      aget? [("J. Smith", "Jane || Smith")] (pRepr (PersonName.fromRepr p.2)) = none) ∧
    getCanonicalVariant [("J. Smith", "Jane || Smith")]
        (getCanonicalVariant [("J. Smith", "Jane || Smith")] ⟨"", "J. Smith", ""⟩) =
      getCanonicalVariant [("J. Smith", "Jane || Smith")] ⟨"", "J. Smith", ""⟩ :=
  ⟨by decide, canonicalize_idempotent_of_closed _ (by decide) _⟩

theorem getPapers_frame (st : PersonIndex) (n : PersonName) (role : Option String) :
    (getPapers st n role).2.names = st.names ∧
    (getPapers st n role).2.variants = st.variants ∧
    (getPapers st n role).2.slugs = st.slugs ∧
    (getPapers st n role).2.allSlugs = st.allSlugs ∧
    (getPapers st n role).2.coauthors = st.coauthors ∧
    ∀ m r', papersView (getPapers st n role).2 m r' = papersView st m r' := by
  cases role with
  | none =>
    refine ⟨rfl, rfl, rfl, rfl, rfl, ?_⟩
    intro m r'
    unfold papersView
    have hp : (getPapers st n none).2.papers =
        asetd st.papers (getCanonicalVariant st.variants n) [] (fun rm => rm) := rfl
    rw [hp]
    simp only [dget_asetd]
    by_cases hm : m = getCanonicalVariant st.variants n
    · simp [hm]
    · simp [hm]
  | some r =>
    refine ⟨rfl, rfl, rfl, rfl, rfl, ?_⟩
    intro m r'
    unfold papersView
    have hp : (getPapers st n (some r)).2.papers =
        asetd st.papers (getCanonicalVariant st.variants n) []
          (fun rm => asetd rm r [] (fun l => l)) := rfl
    rw [hp]
    simp only [dget_asetd]
    by_cases hm : m = getCanonicalVariant st.variants n
    · simp only [hm, if_pos rfl, dget_asetd]
      by_cases hr : r' = r
      · simp [hr, dget_asetd]
      · simp [hr, dget_asetd]
    · simp [hm]

theorem getCoauthors_frame (st : PersonIndex) (n : PersonName) :
    (getCoauthors st n).2.names = st.names ∧
    (getCoauthors st n).2.variants = st.variants ∧
    (getCoauthors st n).2.slugs = st.slugs ∧
    (getCoauthors st n).2.allSlugs = st.allSlugs ∧
    (getCoauthors st n).2.papers = st.papers ∧
    ∀ m b, coView (getCoauthors st n).2 m b = coView st m b := by
  refine ⟨rfl, rfl, rfl, rfl, rfl, ?_⟩
  intro m b
  unfold coView
  have hp : (getCoauthors st n).2.coauthors =
      asetd st.coauthors (getCanonicalVariant st.variants n) [] (fun co => co) := rfl
  rw [hp]
  simp only [dget_asetd]
  by_cases hm : m = getCanonicalVariant st.variants n
  · simp [hm]
  · simp [hm]

/-- C4 counterexample: on a fresh index, a single `get_papers` (or
`get_coauthors`) lookup of an unregistered name changes the index state —
the `defaultdict` read inserts an empty binding. -/
theorem lookup_vivifies_state :
    (getPapers (initIndex []) ⟨"Jane", "Smith", ""⟩ none).2 ≠ initIndex [] ∧
    (getCoauthors (initIndex []) ⟨"Jane", "Smith", ""⟩).2 ≠ initIndex [] := by
  decide

/-- C4 amended: `get_slug` returns the state unchanged; `get_papers`,
`get_coauthors` and `get_venues` leave `names`, `variants`, `slugs`, the
used-slug set, and the respective other store untouched, and preserve every
observable stored value (paper lists and co-author counts read through the
defaulted views); their only state effect is inserting empty default
bindings for the queried name. -/
theorem lookups_preserve_observables (st : PersonIndex) (n : PersonName)
    (role : Option String) (vidx : String → List String) :
    (getSlug st n).2 = st ∧
    ((getPapers st n role).2.names = st.names ∧
     (getPapers st n role).2.variants = st.variants ∧
     (getPapers st n role).2.slugs = st.slugs ∧
     (getPapers st n role).2.allSlugs = st.allSlugs ∧
     (getPapers st n role).2.coauthors = st.coauthors ∧
     ∀ m r', papersView (getPapers st n role).2 m r' = papersView st m r') ∧
    ((getCoauthors st n).2.names = st.names ∧
     (getCoauthors st n).2.variants = st.variants ∧
     (getCoauthors st n).2.slugs = st.slugs ∧
     (getCoauthors st n).2.allSlugs = st.allSlugs ∧
     (getCoauthors st n).2.papers = st.papers ∧
     ∀ m b, coView (getCoauthors st n).2 m b = coView st m b) ∧
    ((getVenues vidx st n).2.names = st.names ∧
     (getVenues vidx st n).2.variants = st.variants ∧
     (getVenues vidx st n).2.slugs = st.slugs ∧
     (getVenues vidx st n).2.allSlugs = st.allSlugs ∧
     (getVenues vidx st n).2.coauthors = st.coauthors ∧
     ∀ m r', papersView (getVenues vidx st n).2 m r' = papersView st m r') :=
  ⟨rfl, getPapers_frame st n role, getCoauthors_frame st n, getPapers_frame st n none⟩

/-- C6: lookups on a name whose canonical form was never registered:
`get_papers` (with or without a role) and `get_coauthors` return empty
sequences, while `get_slug` signals a missing key. -/
theorem unregistered_lookups (sl : String → String) (vt : List (String × String))
    (seq : List (PersonName × Paper × String)) (n : PersonName)
    (h : ∀ e ∈ seq, getCanonicalVariant vt n ≠ getCanonicalVariant vt e.1) :
    (∀ role, (getPapers (runRegisters sl (initIndex vt) seq) n role).1 = []) ∧
    (getCoauthors (runRegisters sl (initIndex vt) seq) n).1 = [] ∧
    (getSlug (runRegisters sl (initIndex vt) seq) n).1 = none := by
  have hvar : (runRegisters sl (initIndex vt) seq).variants = vt :=
    run_variants sl seq (initIndex vt)
  have hka := run_keysAbsent sl seq (initIndex vt) (getCanonicalVariant vt n)
    (fun e he => h e he) ⟨rfl, rfl, rfl⟩
  obtain ⟨hp, hco, hs⟩ := hka
  refine ⟨?_, ?_, ?_⟩
  · intro role
    cases role with
    | none => simp [getPapers, hvar, dget, hp]
    | some r => simp [getPapers, hvar, dget, hp, aget?]
  · simp [getCoauthors, hvar, dget, hco]
  · simp [getSlug, hvar, hs]

/-- Witness for C6: one registration, then lookups of a different name. -/
theorem unregistered_lookups_witness :
    (∀ e ∈ [((⟨"Jane", "Smith", ""⟩ : PersonName), (⟨"P1", fun _ => []⟩ : Paper), "author")],
      getCanonicalVariant [] (⟨"Bob", "Jones", ""⟩ : PersonName) ≠
        getCanonicalVariant [] e.1) ∧
    (getPapers (runRegisters (fun _ => "jane-smith") (initIndex [])
        [((⟨"Jane", "Smith", ""⟩ : PersonName), (⟨"P1", fun _ => []⟩ : Paper), "author")])
      ⟨"Bob", "Jones", ""⟩ (some "author")).1 = [] ∧
    (getSlug (runRegisters (fun _ => "jane-smith") (initIndex [])
        [((⟨"Jane", "Smith", ""⟩ : PersonName), (⟨"P1", fun _ => []⟩ : Paper), "author")])
      ⟨"Bob", "Jones", ""⟩).1 = none :=
  ⟨by decide,
    (unregistered_lookups (fun _ => "jane-smith") [] _ _ (by decide)).1 (some "author"),
    (unregistered_lookups (fun _ => "jane-smith") [] _ _ (by decide)).2.2⟩

/-- C9: during `register`, for every co-author occurrence listed by the
paper under the role (canonicalizing both sides), the counter
`coauthors[identity][co-author]` rises by one exactly when the co-author
differs from the identity; self-pairs are skipped and no other identity's
counter changes. -/
theorem register_coauthor_counting (sl : String → String) (st : PersonIndex)
    (n : PersonName) (p : Paper) (r : String) :
    (∀ b : PersonName,
      coView (register sl st n p r).2 (getCanonicalVariant st.variants n) b =
        coView st (getCanonicalVariant st.variants n) b +
          (if b = getCanonicalVariant st.variants n then 0
           else countEq b ((p.get r).map (getCanonicalVariant st.variants)))) ∧
    (∀ d : PersonName, d ≠ getCanonicalVariant st.variants n →
      ∀ b : PersonName, coView (register sl st n p r).2 d b = coView st d b) := by
  constructor
  · intro b
    unfold coView
    rw [register_coauthors, coFold_view]
    by_cases hb : b = getCanonicalVariant st.variants n
    · rw [if_neg (by rintro ⟨_, h2⟩; exact h2 hb), if_pos hb]
    · rw [if_pos ⟨rfl, hb⟩, if_neg hb]
  · intro d hd b
    unfold coView
    rw [register_coauthors, coFold_view, if_neg (by rintro ⟨e1, _⟩; exact hd e1)]
    omega

/-- Witness for C9: registering Jane on a paper listing Bob as co-author
bumps Jane's counter for Bob by one and leaves Bob's counter untouched. -/
theorem register_coauthor_counting_witness :
    coView (register (fun _ => "jane-smith") (initIndex []) ⟨"Jane", "Smith", ""⟩
        ⟨"P1", fun _ => [⟨"Jane", "Smith", ""⟩, ⟨"Bob", "Jones", ""⟩]⟩ "author").2
      ⟨"Jane", "Smith", ""⟩ ⟨"Bob", "Jones", ""⟩ = 1 ∧
    (⟨"Bob", "Jones", ""⟩ : PersonName) ≠ ⟨"Jane", "Smith", ""⟩ ∧
    coView (register (fun _ => "jane-smith") (initIndex []) ⟨"Jane", "Smith", ""⟩
        ⟨"P1", fun _ => [⟨"Jane", "Smith", ""⟩, ⟨"Bob", "Jones", ""⟩]⟩ "author").2
      ⟨"Bob", "Jones", ""⟩ ⟨"Jane", "Smith", ""⟩ = 0 := by
  refine ⟨?_, by decide, ?_⟩
  · have h := (register_coauthor_counting (fun _ => "jane-smith") (initIndex [])
      ⟨"Jane", "Smith", ""⟩ ⟨"P1", fun _ => [⟨"Jane", "Smith", ""⟩, ⟨"Bob", "Jones", ""⟩]⟩
      "author").1 ⟨"Bob", "Jones", ""⟩
    exact h.trans (by decide)
  · have h := (register_coauthor_counting (fun _ => "jane-smith") (initIndex [])
      ⟨"Jane", "Smith", ""⟩ ⟨"P1", fun _ => [⟨"Jane", "Smith", ""⟩, ⟨"Bob", "Jones", ""⟩]⟩
      "author").2 ⟨"Bob", "Jones", ""⟩ (by decide) ⟨"Jane", "Smith", ""⟩
    exact h.trans (by decide)

/-- C8: registering three distinct identities whose serializations all
slugify to the same non-empty base token, starting from a fresh index,
assigns the base slug to the first, then the base with suffix 1, then the
base with suffix 2 — integer suffixing starts at 1 in registration order. -/
theorem slug_collision_suffixes (sl : String → String) (n1 n2 n3 : PersonName)
    (p1 p2 p3 : Paper) (r1 r2 r3 : String) (base : String) (hb : base ≠ "")
    (h1 : sl (pRepr n1) = base) (h2 : sl (pRepr n2) = base) (h3 : sl (pRepr n3) = base)
    (h12 : pRepr n1 ≠ pRepr n2) (h13 : pRepr n1 ≠ pRepr n3)
    (h23 : pRepr n2 ≠ pRepr n3) :
    aget? (runRegisters sl (initIndex [])
        [(n1, p1, r1), (n2, p2, r2), (n3, p3, r3)]).slugs n1 = some base ∧
    aget? (runRegisters sl (initIndex [])
        [(n1, p1, r1), (n2, p2, r2), (n3, p3, r3)]).slugs n2 = some (base ++ "1") ∧
    aget? (runRegisters sl (initIndex [])
        [(n1, p1, r1), (n2, p2, r2), (n3, p3, r3)]).slugs n3 = some (base ++ "2") := by
  have hn12 : n1 ≠ n2 := fun e => h12 (by rw [e])
  have hn13 : n1 ≠ n3 := fun e => h13 (by rw [e])
  have hn23 : n2 ≠ n3 := fun e => h23 (by rw [e])
  have hb1 : base ++ "1" ≠ base := str_append_ne_left base "1" (by decide)
  have hb1e : base ++ "1" ≠ "" := str_append_ne_empty base "1" (by decide)
  -- first registration
  have hA := register_state_fresh sl (initIndex []) n1 p1 r1 rfl
  have hAv : (register sl (initIndex []) n1 p1 r1).2.variants = [] :=
    register_variants sl (initIndex []) n1 p1 r1
  have hA1 : (register sl (initIndex []) n1 p1 r1).2.names = [(pRepr n1, n1)] := hA.1
  have hA2 : (register sl (initIndex []) n1 p1 r1).2.slugs =
      [(n1, freshSlug [""] (sl (pRepr n1)))] := hA.2.1
  rw [h1, freshSlug_one base hb] at hA2
  have hA3 : (register sl (initIndex []) n1 p1 r1).2.allSlugs =
      insertS (freshSlug [""] (sl (pRepr n1))) [""] := hA.2.2
  rw [h1, freshSlug_one base hb] at hA3
  have hA3' : (register sl (initIndex []) n1 p1 r1).2.allSlugs = [base, ""] := by
    rw [hA3]
    simp [insertS, hb]
  -- second registration
  have hcond2 : aget? (register sl (initIndex []) n1 p1 r1).2.names
      (pRepr (getCanonicalVariant (register sl (initIndex []) n1 p1 r1).2.variants n2)) =
      none := by
    rw [hAv, gCV_nil, hA1]
    simp [aget?, h12]
  have hB := register_state_fresh sl (register sl (initIndex []) n1 p1 r1).2 n2 p2 r2 hcond2
  have hBv : (register sl (register sl (initIndex []) n1 p1 r1).2 n2 p2 r2).2.variants = [] := by
    rw [register_variants, hAv]
  rw [hAv, gCV_nil, hA1, hA2, hA3'] at hB
  have hB1 : (register sl (register sl (initIndex []) n1 p1 r1).2 n2 p2 r2).2.names =
      [(pRepr n1, n1), (pRepr n2, n2)] := by
    rw [hB.1]
    rfl
  have hB2 : (register sl (register sl (initIndex []) n1 p1 r1).2 n2 p2 r2).2.slugs =
      [(n1, base), (n2, base ++ "1")] := by
    rw [hB.2.1, h2, freshSlug_two base]
    rfl
  have hB3 : (register sl (register sl (initIndex []) n1 p1 r1).2 n2 p2 r2).2.allSlugs =
      [base ++ "1", base, ""] := by
    rw [hB.2.2, h2, freshSlug_two base]
    simp [insertS, hb1, hb1e]
  -- third registration
  have hcond3 : aget? (register sl (register sl (initIndex []) n1 p1 r1).2 n2 p2 r2).2.names
      (pRepr (getCanonicalVariant
        (register sl (register sl (initIndex []) n1 p1 r1).2 n2 p2 r2).2.variants n3)) =
      none := by
    rw [hBv, gCV_nil, hB1]
    simp [aget?, h13, h23]
  have hC := register_state_fresh sl
    (register sl (register sl (initIndex []) n1 p1 r1).2 n2 p2 r2).2 n3 p3 r3 hcond3
  rw [hBv, gCV_nil, hB2, hB3] at hC
  have hC2 : (register sl (register sl (register sl (initIndex []) n1 p1 r1).2 n2 p2 r2).2
      n3 p3 r3).2.slugs = [(n1, base), (n2, base ++ "1"), (n3, base ++ "2")] := by
    rw [hC.2.1, h3, freshSlug_three base]
    rfl
  have hrun : runRegisters sl (initIndex []) [(n1, p1, r1), (n2, p2, r2), (n3, p3, r3)] =
      (register sl (register sl (register sl (initIndex []) n1 p1 r1).2 n2 p2 r2).2
        n3 p3 r3).2 := rfl
  rw [hrun, hC2]
  refine ⟨?_, ?_, ?_⟩
  · simp [aget?]
  · simp [aget?, hn12]
  · simp [aget?, hn13, hn23]

/-- Witness for C8 with a constant slugify routine and three distinct
names. -/
theorem slug_collision_suffixes_witness :
    aget? (runRegisters (fun _ => "jane-smith") (initIndex [])
        [((⟨"Jane", "Smith", ""⟩ : PersonName), (⟨"P1", fun _ => []⟩ : Paper), "author"),
          ((⟨"", "Jane-Smith", ""⟩ : PersonName), (⟨"P2", fun _ => []⟩ : Paper), "author"),
          ((⟨"J", "S", ""⟩ : PersonName), (⟨"P3", fun _ => []⟩ : Paper), "author")]).slugs
      ⟨"Jane", "Smith", ""⟩ = some "jane-smith" ∧
    aget? (runRegisters (fun _ => "jane-smith") (initIndex [])
        [((⟨"Jane", "Smith", ""⟩ : PersonName), (⟨"P1", fun _ => []⟩ : Paper), "author"),
          ((⟨"", "Jane-Smith", ""⟩ : PersonName), (⟨"P2", fun _ => []⟩ : Paper), "author"),
          ((⟨"J", "S", ""⟩ : PersonName), (⟨"P3", fun _ => []⟩ : Paper), "author")]).slugs
      ⟨"", "Jane-Smith", ""⟩ = some ("jane-smith" ++ "1") ∧
    aget? (runRegisters (fun _ => "jane-smith") (initIndex [])
        [((⟨"Jane", "Smith", ""⟩ : PersonName), (⟨"P1", fun _ => []⟩ : Paper), "author"),
          ((⟨"", "Jane-Smith", ""⟩ : PersonName), (⟨"P2", fun _ => []⟩ : Paper), "author"),
          ((⟨"J", "S", ""⟩ : PersonName), (⟨"P3", fun _ => []⟩ : Paper), "author")]).slugs
      ⟨"J", "S", ""⟩ = some ("jane-smith" ++ "2") :=
  slug_collision_suffixes (fun _ => "jane-smith") ⟨"Jane", "Smith", ""⟩
    ⟨"", "Jane-Smith", ""⟩ ⟨"J", "S", ""⟩ ⟨"P1", fun _ => []⟩ ⟨"P2", fun _ => []⟩
    ⟨"P3", fun _ => []⟩ "author" "author" "author" "jane-smith" (by decide) rfl rfl rfl
    (by decide) (by decide) (by decide)

/-- C10 counterexample: two identities, no part of which contains the
four-character separator token, that nevertheless share a serialization
(`"a ||"`/`"b"` versus `"a"`/`"|| b"`): after registering both, the second
is recorded in the papers store yet `get_slug` on it signals a missing
key. -/
theorem registered_name_without_slug :
    (∀ s ∈ ["a ||", "b", "", "a", "|| b"], pySplitSep s = [s]) ∧
    (getPapers (runRegisters (fun _ => "s") (initIndex [])
        [((⟨"a ||", "b", ""⟩ : PersonName), (⟨"PA", fun _ => []⟩ : Paper), "author"),
          ((⟨"a", "|| b", ""⟩ : PersonName), (⟨"PB", fun _ => []⟩ : Paper), "author")])
      ⟨"a", "|| b", ""⟩ (some "author")).1 = ["PB"] ∧
    (getSlug (runRegisters (fun _ => "s") (initIndex [])
        [((⟨"a ||", "b", ""⟩ : PersonName), (⟨"PA", fun _ => []⟩ : Paper), "author"),
          ((⟨"a", "|| b", ""⟩ : PersonName), (⟨"PB", fun _ => []⟩ : Paper), "author")])
      ⟨"a", "|| b", ""⟩).1 = none := by
  decide

/-- C10 amended: provided no part of any canonicalized registered name
contains two adjacent pipes, the key list of the slug map equals the list of
registered identities, the keys are pairwise distinct (exactly one slug
each), and `get_slug` succeeds on every registered name. -/
theorem registered_names_have_slugs (sl : String → String) (vt : List (String × String))
    (seq : List (PersonName × Paper × String))
    (h : ∀ e ∈ seq, NoPPn (getCanonicalVariant vt e.1)) :
    ((runRegisters sl (initIndex vt) seq).slugs.map Prod.fst =
      (runRegisters sl (initIndex vt) seq).names.map Prod.snd) ∧
    ((runRegisters sl (initIndex vt) seq).slugs.map Prod.fst).Nodup ∧
    ∀ e ∈ seq, (getSlug (runRegisters sl (initIndex vt) seq) e.1).1.isSome = true := by
  have hinit : RegInv (initIndex vt) := ⟨rfl, by simp [initIndex], by simp [initIndex]⟩
  obtain ⟨hinv, hall⟩ := run_RegInv sl seq (initIndex vt) hinit (fun e he => h e he)
  obtain ⟨hs, he2, hn⟩ := hinv
  refine ⟨hs, ?_, ?_⟩
  · rw [hs]
    have hmap : (runRegisters sl (initIndex vt) seq).names.map Prod.fst =
        ((runRegisters sl (initIndex vt) seq).names.map Prod.snd).map pRepr := by
      rw [List.map_map]
      exact List.map_congr_left (fun kv hkv => (he2 kv hkv).1)
    rw [hmap] at hn
    exact List.Nodup.of_map pRepr hn
  · intro e he
    have hsome := hall e he
    have hvar := run_variants sl seq (initIndex vt)
    have hmem : (getCanonicalVariant vt e.1) ∈
        (runRegisters sl (initIndex vt) seq).names.map Prod.snd :=
      List.mem_map.mpr ⟨_, aget?_mem hsome, rfl⟩
    rw [← hs] at hmem
    show (aget? (runRegisters sl (initIndex vt) seq).slugs
      (getCanonicalVariant (runRegisters sl (initIndex vt) seq).variants e.1)).isSome = true
    rw [hvar, aget?_isSome_iff]
    exact hmem

/-- Witness for C10 with one pipe-free registration. -/
theorem registered_names_have_slugs_witness :
    (∀ e ∈ [((⟨"Jane", "Smith", ""⟩ : PersonName), (⟨"P1", fun _ => []⟩ : Paper), "author")],
      NoPPn (getCanonicalVariant [] e.1)) ∧
    (((runRegisters (fun _ => "jane-smith") (initIndex [])
        [((⟨"Jane", "Smith", ""⟩ : PersonName),
          (⟨"P1", fun _ => []⟩ : Paper), "author")]).slugs.map Prod.fst =
      (runRegisters (fun _ => "jane-smith") (initIndex [])
        [((⟨"Jane", "Smith", ""⟩ : PersonName),
          (⟨"P1", fun _ => []⟩ : Paper), "author")]).names.map Prod.snd) ∧
    ((runRegisters (fun _ => "jane-smith") (initIndex [])
        [((⟨"Jane", "Smith", ""⟩ : PersonName),
          (⟨"P1", fun _ => []⟩ : Paper), "author")]).slugs.map Prod.fst).Nodup ∧
    ∀ e ∈ [((⟨"Jane", "Smith", ""⟩ : PersonName), (⟨"P1", fun _ => []⟩ : Paper), "author")],
      (getSlug (runRegisters (fun _ => "jane-smith") (initIndex [])
        [((⟨"Jane", "Smith", ""⟩ : PersonName),
          (⟨"P1", fun _ => []⟩ : Paper), "author")]) e.1).1.isSome = true) :=
  ⟨by decide, registered_names_have_slugs (fun _ => "jane-smith") [] _ (by decide)⟩

/-- Witness for C3: a concrete run whose single slug is non-empty. -/
theorem slug_values_distinct_nonempty_witness : ("jane-smith" : String) ≠ "" :=
  (slug_values_distinct_nonempty (fun _ => "jane-smith") []
    [((⟨"Jane", "Smith", ""⟩ : PersonName), (⟨"P1", fun _ => []⟩ : Paper), "author")]).2
    "jane-smith" (by decide)
